import Mathlib

/-!
Verification of the mount-namespace management subsystem of the rkt "fly"
flavor: the mountinfo prefix filter / dependency orderer, the pod mount
reaper (stage1_fly/gc/main.go), and the mount plan builder and setup
entrypoint of the fly stage1 (evaluateMounts, stage1).

Strings are modelled as Lean `String`s, compared through their underlying
character lists; for the ASCII paths involved this coincides with Go's
byte-wise string comparison.  All definitions are structural so that they
evaluate inside the kernel (`decide` / `rfl`).
-/

namespace RktFly

/-! ## Definitions -/

/-! ### Linux mount flag constants (syscall package values, x86-64) -/

def MS_RDONLY : Nat := 1

def MS_REMOUNT : Nat := 32

def MS_BIND : Nat := 4096

def MS_REC : Nat := 16384

def MS_PRIVATE : Nat := 262144

def MS_SHARED : Nat := 1048576

/-! ### String utilities

Structural re-implementations of the Go string operations used by the
sources (`strings.Split`, substring search, byte-wise comparison), written
on `List Char` so they reduce in the kernel. -/

/-- Byte-wise (here: character-wise) lexicographic `≤` on character lists,
the order used by Go's `sort.StringSlice`. -/
def lexLeB : List Char → List Char → Bool
  | [], _ => true
  | _ :: _, [] => false
  | a :: as, b :: bs => if a < b then true else if b < a then false else lexLeB as bs

/-- Go `<=` on strings (byte-wise for ASCII). -/
def strLe (a b : String) : Prop := lexLeB a.data b.data = true

/-- The reversed order, used for the descending unmount pass. -/
def strGe (a b : String) : Prop := strLe b a

instance : DecidableRel strLe := fun a b =>
  inferInstanceAs (Decidable (lexLeB a.data b.data = true))

instance : DecidableRel strGe := fun a b =>
  inferInstanceAs (Decidable (lexLeB b.data a.data = true))

/-- `strings.Split(s, sep)` for a single-character separator: auxiliary
accumulator version. -/
def splitAux (sep : Char) : List Char → List Char → List (List Char)
  | [], acc => [acc.reverse]
  | c :: cs, acc => if c == sep then acc.reverse :: splitAux sep cs [] else splitAux sep cs (c :: acc)

/-- `strings.Split(line, " ")` (single-character separator). -/
def splitOnChar (sep : Char) (s : String) : List String :=
  (splitAux sep s.data []).map (fun l => String.mk l)

/-- Does `needle` occur as a contiguous substring of `hay`?  This models the
unanchored regular-expression match `.*podID.*` used by the reaper (a UUID
contains no regex metacharacters, so the regex match is exactly substring
containment). -/
def containsSub (needle : List Char) : List Char → Bool
  | [] => needle.isEmpty
  | c :: cs => needle.isPrefixOf (c :: cs) || containsSub needle cs

/-- `strings.Contains(line, pat)`. -/
def strContains (line pat : String) : Bool := containsSub pat.data line.data

/-- `strings.HasPrefix(s, pre)` (argument order: the candidate prefix first). -/
def hasPrefixStr (pre s : String) : Bool := pre.data.isPrefixOf s.data

/-- Parse a decimal numeral, accumulator version (`strconv.Atoi` on
non-negative input). -/
def parseNatAux : List Char → Nat → Option Nat
  | [], acc => some acc
  | c :: cs, acc =>
    if c.isDigit then parseNatAux cs (acc * 10 + (c.toNat - 48)) else none

/-- Parse a decimal numeral; fails on the empty string or any non-digit. -/
def parseNat : List Char → Option Nat
  | [] => none
  | c :: cs => parseNatAux (c :: cs) 0

/-- First-seen-preserving deduplication with an explicit seen set: the Go
reaper's `mountMap` / `mountList` loop. -/
def dedupSeen : List String → List String → List String
  | [], _ => []
  | a :: l, seen => if seen.contains a then dedupSeen l seen else a :: dedupSeen l (a :: seen)

/-- Deduplicate, keeping the first occurrence of each element. -/
def dedupFirstSeen (l : List String) : List String := dedupSeen l []

/-! ### Pod Mount Reaper (stage1_fly/gc/main.go)

The reaper scans `/proc/self/mountinfo` for lines containing the pod UUID,
collects the mount-point field (5th space-separated field) of each matched
line, deduplicates preserving first-seen order, remounts each mount point
recursively private in ascending lexicographic order and then unmounts each
in descending lexicographic order.  The sorts are modelled by
`List.insertionSort`; the Go code uses `sort.Sort`, an unstable comparison
sort, but the list being sorted is deduplicated (all elements distinct), so
every comparison sort produces the same, unique result on it. -/

/-- `splitLine[4]`: the mount-point field of a mountinfo line.  `none` models
the Go index panic on a line with fewer than five fields. -/
def extractMountField (line : String) : Option String :=
  (splitOnChar ' ' line)[4]?

/-- The mountinfo lines whose text contains the pod identifier
(the regex `.*podID.*`). -/
def gcMatchedLines (lines : List String) (podID : String) : List String :=
  lines.filter (fun l => strContains l podID)

/-- Extract the mount-point field of every line; `none` if any line is too
short (the Go loop would panic there). -/
def gcExtract : List String → Option (List String)
  | [] => some []
  | l :: ls =>
    match extractMountField l, gcExtract ls with
    | some m, some ms => some (m :: ms)
    | _, _ => none

/-- The reaper's `mountList`: deduplicated (first-seen order) mount points of
all matched lines. -/
def gcMountList (lines : List String) (podID : String) : Option (List String) :=
  match gcExtract (gcMatchedLines lines podID) with
  | none => none
  | some ms => some (dedupFirstSeen ms)

/-- Ascending lexicographic sort: the remount pass order
(`sort.Sort(sort.StringSlice(mountList))`). -/
def gcRemountSeq (ms : List String) : List String := List.insertionSort strLe ms

/-- Descending lexicographic sort: the unmount pass order
(`sort.Sort(sort.Reverse(sort.StringSlice(mountList)))`). -/
def gcUnmountSeq (ms : List String) : List String := List.insertionSort strGe ms

/-- One mount-table-mutating action of the reaper. -/
inductive GCAction where
  | remount (dest : String) (flags : Nat)
  | unmount (dest : String) (flags : Nat)
deriving DecidableEq

/-- The full action sequence of the reaper main: all remounts (recursively
private), in ascending order, strictly before all unmounts, in descending
order.  `none` models a crash on a malformed matched line. -/
def gcActions (lines : List String) (podID : String) : Option (List GCAction) :=
  match gcMountList lines podID with
  | none => none
  | some ms =>
    some ((gcRemountSeq ms).map (fun d => GCAction.remount d (MS_REC ||| MS_PRIVATE)) ++
      (gcUnmountSeq ms).map (fun d => GCAction.unmount d 0))

/-- A three-line mountinfo table tagged with identifier `abc123`, with mount
points `/a`, `/a/b`, `/a/b/c`. -/
def gcExampleLines : List String :=
  ["1 0 0:1 / /a rw abc123 - ext4 /dev/x rw",
   "2 1 0:2 / /a/b rw abc123 - ext4 /dev/x rw",
   "3 2 0:3 / /a/b/c rw abc123 - ext4 /dev/x rw"]

/-! ### MountTable Parser and Prefix Filter / Dependency Orderer

The function `getMountsForPrefix` exercised by `TestMountOrdering`
(src/unnamed/part_000) is not itself among the source files; only its test
is.  The definitions below are modelled from the spec (§4.1, §4.2): parse
the mountinfo text into records carrying the mount id, parent id and mount
point; select the entries whose mount point equals the prefix or lies under
it by a proper path-segment match; order them by deterministic recursive
descent over the parent→children adjacency built from `parentID`, emitting
every entry after all entries below it.  The table is walked in reverse
scan order (the kernel lists mounts in creation order, so the reverse
starts from the most recently created, deepest mounts); this walk
reproduces the expected output of `TestMountOrdering` exactly. -/

/-- One parsed mountinfo record (the fields the filter consumes). -/
structure mnt where
  id : Nat
  parentID : Nat
  mountPoint : String
deriving DecidableEq

/-- Modelled from the spec: parse one mountinfo line — space-separated
fields, id at index 0, parent id at index 1, mount point at index 4;
malformed lines (too few fields, non-numeric id fields) are a parse
error. -/
def parseMountinfoLine (line : String) : Option mnt :=
  let fields := splitOnChar ' ' line
  if fields.length < 7 then none
  else
    match parseNat (fields.getD 0 "").data, parseNat (fields.getD 1 "").data with
    | some i, some p => some { id := i, parentID := p, mountPoint := fields.getD 4 "" }
    | _, _ => none

/-- Modelled from the spec: parse a whole mountinfo table, failing on any
malformed line. -/
def parseMountinfo : List String → Option (List mnt)
  | [] => some []
  | l :: ls =>
    match parseMountinfoLine l, parseMountinfo ls with
    | some m, some ms => some (m :: ms)
    | _, _ => none

/-- Proper path-segment prefix selection: the mount point equals the prefix
or extends it across a `/` boundary (`/foo` does not match `/foobar`). -/
def mountMatches (pfx : String) (m : mnt) : Bool :=
  m.mountPoint == pfx || hasPrefixStr (pfx ++ "/") m.mountPoint

/-- The children of the mount with id `pid`, in the order of `ms`. -/
def mountChildren (ms : List mnt) (pid : Nat) : List mnt :=
  ms.filter (fun m => m.parentID == pid)

/-- All entries strictly below the mount with id `pid`: for each child,
first everything below it, then the children themselves.  `fuel` bounds the
recursion depth (the table length always suffices on acyclic tables). -/
def descendMounts (ms : List mnt) : Nat → Nat → List mnt
  | 0, _ => []
  | fuel + 1, pid =>
    ((mountChildren ms pid).map (fun c => descendMounts ms fuel c.id)).flatten ++
      mountChildren ms pid

/-- Modelled from the spec (§4.2): select every entry whose mount point is
the prefix or a proper path-segment descendant of it, and return them so
that entries below a mount precede it; roots of the restricted forest are
the matched entries whose parent is not matched. -/
def getMountsForPrefix (pfx : String) (table : List mnt) : List mnt :=
  let matched := (table.filter (mountMatches pfx)).reverse
  let roots := matched.filter (fun m => !(matched.any (fun x => x.id == m.parentID)))
  (roots.map (fun r => descendMounts matched matched.length r.id ++ [r])).flatten

/-- `descOf a b`: the mount point of `a` lies strictly below the mount point
of `b` in the path hierarchy. -/
def descOf (a b : mnt) : Bool := hasPrefixStr (b.mountPoint ++ "/") a.mountPoint

/-- The ordering contract of the prefix filter: no entry is followed by one
of its own path-descendants (equivalently, every entry precedes all its
path-ancestors in the list). -/
def descendantsFirst : List mnt → Bool
  | [] => true
  | a :: l => l.all (fun b => !(descOf b a)) && descendantsFirst l

/-- The mountinfo table of `TestMountOrdering` (src/unnamed/part_000),
verbatim. -/
def testMountinfoLines : List String :=
  ["71 21 0:39 / /var/lib/rkt rw,relatime shared:26 -",
   "116 71 0:45 / /my/mount/prefix/rootfs rw,relatime shared:32 -",
   "121 116 0:46 / /my/mount/prefix/rootfs/opt/stage2/busybox/rootfs rw,relatime shared:63 -",
   "146 145 0:27 / /my/mount/prefix/rootfs/opt/stage2/busybox/rootfs/sys/fs/cgroup/systemd rw,nosuid,nodev,noexec,relatime shared:6 -",
   "145 144 0:26 / /my/mount/prefix/rootfs/opt/stage2/busybox/rootfs/sys/fs/cgroup rw,nosuid,nodev,noexec shared:5 -",
   "144 121 0:17 / /my/mount/prefix/rootfs/opt/stage2/busybox/rootfs/sys rw,relatime shared:3 -",
   "180 121 0:19 /nixos /my/mount/prefix/rootfs/opt/stage2/busybox/rootfs/rootfs ro,relatime shared:1 -",
   "184 183 0:27 / /my/mount/prefix/rootfs/opt/stage2/busybox/rootfs/rootfs/sys/fs/cgroup/systemd rw,nosuid,nodev,noexec,relatime shared:6 -",
   "183 182 0:26 / /my/mount/prefix/rootfs/opt/stage2/busybox/rootfs/rootfs/sys/fs/cgroup rw,nosuid,nodev,noexec shared:5 -",
   "182 180 0:17 / /my/mount/prefix/rootfs/opt/stage2/busybox/rootfs/rootfs/sys rw,relatime shared:3 -",
   "209 206 0:45 / /my/mount/prefix/rootfs/opt/stage2/busybox/rootfs/rootfs/my/mount/prefix/rootfs rw,relatime shared:32 -",
   "219 218 0:27 / /my/mount/prefix/rootfs/opt/stage2/busybox/rootfs/rootfs/my/mount/prefix/rootfs/opt/stage2/busybox/rootfs/sys/fs/cgroup/systemd rw,nosuid,nodev,noexec,relatime shared:6 -",
   "218 217 0:26 / /my/mount/prefix/rootfs/opt/stage2/busybox/rootfs/rootfs/my/mount/prefix/rootfs/opt/stage2/busybox/rootfs/sys/fs/cgroup rw,nosuid,nodev,noexec shared:5 -",
   "217 210 0:17 / /my/mount/prefix/rootfs/opt/stage2/busybox/rootfs/rootfs/my/mount/prefix/rootfs/opt/stage2/busybox/rootfs/sys rw,relatime shared:3 -",
   "210 209 0:46 / /my/mount/prefix/rootfs/opt/stage2/busybox/rootfs/rootfs/my/mount/prefix/rootfs/opt/stage2/busybox/rootfs rw,relatime shared:63 -"]

/-- The parse of `testMountinfoLines`. -/
def testMountTable : List mnt :=
  [⟨71, 21, "/var/lib/rkt"⟩,
   ⟨116, 71, "/my/mount/prefix/rootfs"⟩,
   ⟨121, 116, "/my/mount/prefix/rootfs/opt/stage2/busybox/rootfs"⟩,
   ⟨146, 145, "/my/mount/prefix/rootfs/opt/stage2/busybox/rootfs/sys/fs/cgroup/systemd"⟩,
   ⟨145, 144, "/my/mount/prefix/rootfs/opt/stage2/busybox/rootfs/sys/fs/cgroup"⟩,
   ⟨144, 121, "/my/mount/prefix/rootfs/opt/stage2/busybox/rootfs/sys"⟩,
   ⟨180, 121, "/my/mount/prefix/rootfs/opt/stage2/busybox/rootfs/rootfs"⟩,
   ⟨184, 183, "/my/mount/prefix/rootfs/opt/stage2/busybox/rootfs/rootfs/sys/fs/cgroup/systemd"⟩,
   ⟨183, 182, "/my/mount/prefix/rootfs/opt/stage2/busybox/rootfs/rootfs/sys/fs/cgroup"⟩,
   ⟨182, 180, "/my/mount/prefix/rootfs/opt/stage2/busybox/rootfs/rootfs/sys"⟩,
   ⟨209, 206, "/my/mount/prefix/rootfs/opt/stage2/busybox/rootfs/rootfs/my/mount/prefix/rootfs"⟩,
   ⟨219, 218, "/my/mount/prefix/rootfs/opt/stage2/busybox/rootfs/rootfs/my/mount/prefix/rootfs/opt/stage2/busybox/rootfs/sys/fs/cgroup/systemd"⟩,
   ⟨218, 217, "/my/mount/prefix/rootfs/opt/stage2/busybox/rootfs/rootfs/my/mount/prefix/rootfs/opt/stage2/busybox/rootfs/sys/fs/cgroup"⟩,
   ⟨217, 210, "/my/mount/prefix/rootfs/opt/stage2/busybox/rootfs/rootfs/my/mount/prefix/rootfs/opt/stage2/busybox/rootfs/sys"⟩,
   ⟨210, 209, "/my/mount/prefix/rootfs/opt/stage2/busybox/rootfs/rootfs/my/mount/prefix/rootfs/opt/stage2/busybox/rootfs"⟩]

/-- The mount ids `TestMountOrdering` expects, in order. -/
def testExpectedIds : List Nat :=
  [219, 218, 217, 210, 209, 184, 183, 182, 146, 145, 180, 144, 121, 116]

/-- An adversarial two-entry table: both entries match the prefix `/p`, the
path-descendant `/p/a/b` was scanned before its path-ancestor `/p/a`, and
neither parent id belongs to a matched entry. -/
def ceMountTable : List mnt := [⟨1, 50, "/p/a/b"⟩, ⟨2, 60, "/p/a"⟩]

/-! ### Mount Plan Builder (evaluateMounts of the fly stage1)

Direct translation of `evaluateMounts` (src/unnamed/part_001, lines
129-203).  The Go map `namedVolumeMounts` is modelled as an insertion-
ordered association list (`NVM`); its content equals the Go map's content.
Go's `range` over a map visits keys in an unspecified order, so the final
emission loop takes the iteration order as an explicit parameter `ks`; a
faithful instantiation is any permutation of the map's keys.

`log.Fatalf` terminates the process (`os.Exit(1)`); it is modelled as the
distinct outcome `FlyResult.fatal`, while a returned non-nil `error` is
`FlyResult.errRes`. -/

/-- The fields of `types.Volume` read by this code (`Name`, `Source`,
`ReadOnly`). -/
structure Volume where
  name : String
  source : String
  readOnly : Option Bool
deriving DecidableEq

/-- The fields of `schema.Mount` (`Volume`, `Path`). -/
structure SchemaMount where
  volume : String
  path : String
deriving DecidableEq

/-- The fields of `types.MountPoint` read by this code (`Name`, `Path`,
`ReadOnly`). -/
structure MountPoint where
  name : String
  path : String
  readOnly : Bool
deriving DecidableEq

/-- `volumeMountTuple` of the source. -/
structure volumeMountTuple where
  V : Volume
  M : SchemaMount
deriving DecidableEq

/-- The zero value of `types.Volume` (Go zero struct: empty strings, nil
pointer). -/
def zeroVolume : Volume := { name := "", source := "", readOnly := none }

/-- `flyMount` of the source. -/
structure flyMount where
  HostPath : String
  TargetPrefixPath : String
  RelTargetPath : String
  Fs : String
  Flags : Nat
deriving DecidableEq

/-- The failure classes of `evaluateMounts` / `stage1`, one per distinct
message in the source. -/
inductive FlyErr where
  | duplicatedMount (v : String)
  | conflictingPath (name : String)
  | missingMount (v : String)
  | mismatchedPair (v m : String)
  | missingVolume (name : String)
  | wrongAppCount (n : Nat)
deriving DecidableEq

/-- Outcome of a fly-stage1 computation: success, a non-nil `error` value
returned to the caller (`errRes`), or process termination through
`log.Fatalf` (`fatal`). -/
inductive FlyResult (α : Type) where
  | ok (val : α)
  | errRes (e : FlyErr)
  | fatal (e : FlyErr)
deriving DecidableEq

/-- Sequencing that propagates both failure kinds. -/
def andThen {α β : Type} (r : FlyResult α) (f : α → FlyResult β) : FlyResult β :=
  match r with
  | .ok a => f a
  | .errRes e => .errRes e
  | .fatal e => .fatal e

/-- `true` exactly on `errRes` (a returned error value). -/
def resultIsErrRes {α : Type} : FlyResult α → Bool
  | .errRes _ => true
  | _ => false

/-- `true` exactly on `fatal` (process termination via `log.Fatalf`). -/
def resultIsFatal {α : Type} : FlyResult α → Bool
  | .fatal _ => true
  | _ => false

/-- The `namedVolumeMounts` map, as an insertion-ordered association list. -/
abbrev NVM : Type := List (String × volumeMountTuple)

/-- Go map read: the value stored at key `k`, if any. -/
def lookupNVM (m : NVM) (k : String) : Option volumeMountTuple :=
  match List.find? (fun p => p.1 == k) m with
  | some p => some p.2
  | none => none

/-- Go map write: replace the value at `k` if present, else add the key. -/
def insertNVM (m : NVM) (k : String) (t : volumeMountTuple) : NVM :=
  match m with
  | [] => [(k, t)]
  | p :: rest => if p.1 == k then (k, t) :: rest else p :: insertNVM rest k t

/-- Loop 1 of `evaluateMounts` (lines 133-140): seed the map from the
pod-level mounts; a repeated volume name hits `log.Fatalf` ("duplicated
mount given"). -/
def seedMounts : List SchemaMount → NVM → FlyResult NVM
  | [], acc => .ok acc
  | m :: rest, acc =>
    match lookupNVM acc m.volume with
    | some _ => .fatal (.duplicatedMount m.volume)
    | none => seedMounts rest (insertNVM acc m.volume ⟨zeroVolume, m⟩)

/-- Loop 2 (lines 142-152): merge the image's mount points; an existing
record with a different path is a returned error ("conflicting path
information"); a missing record is created from the mount point. -/
def mergeMountPoints : List MountPoint → NVM → FlyResult NVM
  | [], acc => .ok acc
  | mp :: rest, acc =>
    match lookupNVM acc mp.name with
    | some t =>
      if t.M.path ≠ mp.path then .errRes (.conflictingPath mp.name)
      else mergeMountPoints rest acc
    | none =>
      mergeMountPoints rest (insertNVM acc mp.name ⟨zeroVolume, { volume := mp.name, path := mp.path }⟩)

/-- Loop 3 (lines 154-166): attach each declared volume to its record; a
volume with no record is a returned error ("missing mount for volume"), a
record whose mount names a different volume is a returned error
("mismatched volume:mount pair"). -/
def insertVolumes : List Volume → NVM → FlyResult NVM
  | [], acc => .ok acc
  | v :: rest, acc =>
    match lookupNVM acc v.name with
    | none => .errRes (.missingMount v.name)
    | some t =>
      if t.M.volume ≠ v.name then .errRes (.mismatchedPair v.name t.M.volume)
      else insertVolumes rest (insertNVM acc v.name ⟨v, t.M⟩)

/-- Loop 4 (lines 168-183): a mount point whose record has no volume hits
`log.Fatalf` ("missing volume for mountpoint"); if the volume's read-only
flag is unset it is filled in from the mount point. -/
def fillReadOnly : List MountPoint → NVM → FlyResult NVM
  | [], acc => .ok acc
  | mp :: rest, acc =>
    match lookupNVM acc mp.name with
    | none => .fatal (.missingVolume mp.name)
    | some t =>
      if t.V.name = "" then .fatal (.missingVolume mp.name)
      else
        match t.V.readOnly with
        | none =>
          fillReadOnly rest
            (insertNVM acc mp.name ⟨{ t.V with readOnly := some mp.readOnly }, t.M⟩)
        | some _ => fillReadOnly rest acc

/-- The four reconciliation loops in sequence, producing the final
`namedVolumeMounts` content. -/
def reconcile (mounts : List SchemaMount) (volumes : List Volume)
    (mountPoints : List MountPoint) : FlyResult NVM :=
  andThen (seedMounts mounts []) (fun m1 =>
  andThen (mergeMountPoints mountPoints m1) (fun m2 =>
  andThen (insertVolumes volumes m2) (fun m3 =>
  fillReadOnly mountPoints m3)))

/-- `syscall.MS_BIND | syscall.MS_REC` (the `flags` local, line 186). -/
def bindFlags : Nat := MS_BIND ||| MS_REC

/-- The flags of the read-only remount operation (line 198). -/
def roFlags : Nat := bindFlags ||| MS_REMOUNT ||| MS_RDONLY

/-- Operation (a): mark the host source shared and recursive (line 190). -/
def markOp (t : volumeMountTuple) : flyMount :=
  { HostPath := "", TargetPrefixPath := "", RelTargetPath := t.V.source,
    Fs := "none", Flags := MS_REC ||| MS_SHARED }

/-- Operation (b): recursively bind the host source onto the target beneath
the rootfs (line 193). -/
def bindOp (rfs : String) (t : volumeMountTuple) : flyMount :=
  { HostPath := t.V.source, TargetPrefixPath := rfs, RelTargetPath := t.M.path,
    Fs := "none", Flags := bindFlags }

/-- Operation (c): remount the target read-only (line 198). -/
def roOp (rfs : String) (t : volumeMountTuple) : flyMount :=
  { HostPath := "", TargetPrefixPath := rfs, RelTargetPath := t.M.path,
    Fs := "none", Flags := roFlags }

/-- The operations appended for one tuple of the final loop (lines 187-201):
the shared mark, the recursive bind, and — exactly when the resolved
read-only flag is set and true — the read-only remount. -/
def emitTuple (rfs : String) (t : volumeMountTuple) : List flyMount :=
  [markOp t, bindOp rfs t] ++
    (match t.V.readOnly with
     | some true => [roOp rfs t]
     | some false => []
     | none => [])

/-- The same triple written with an `if`: `[a, b]` then `[c]` iff the
resolved read-only flag is `some true`. -/
def mountBlock (rfs : String) (t : volumeMountTuple) : List flyMount :=
  [markOp t, bindOp rfs t] ++ (if t.V.readOnly = some true then [roOp rfs t] else [])

/-- The keys of the map in insertion order (one faithful iteration order). -/
def nvmKeys (m : NVM) : List String := List.map (fun p => p.1) m

/-- `evaluateMounts` (lines 129-203).  `ks` is the order in which Go's
`range` happens to visit the map keys; any permutation of the key set is a
faithful instantiation. -/
def evaluateMounts (rfs : String) (mounts : List SchemaMount) (volumes : List Volume)
    (mountPoints : List MountPoint) (ks : List String) : FlyResult (List flyMount) :=
  andThen (reconcile mounts volumes mountPoints) (fun m4 =>
    .ok (ks.flatMap (fun k =>
      match lookupNVM m4 k with
      | some t => emitTuple rfs t
      | none => [])))

/-! ### stage1 setup entrypoint (lines 205-339) -/

/-- One app of the pod manifest: its name and its pod-level mounts. -/
structure FlyApp where
  name : String
  mounts : List SchemaMount
deriving DecidableEq

/-- The projections of the loaded pod consumed by `stage1`:
the manifest apps, the manifest volumes, and the image mount points of each
app (the `p.Images[app].App.MountPoints` map). -/
structure FlyPod where
  root : String
  apps : List FlyApp
  volumes : List Volume
  imageMountPoints : List (String × List MountPoint)
deriving DecidableEq

/-- `p.Images[appName].App.MountPoints`. -/
def podImageMountPoints (p : FlyPod) (appName : String) : List MountPoint :=
  match List.find? (fun q => q.1 == appName) p.imageMountPoints with
  | some q => q.2
  | none => []

/-- Modelled from the spec: `common.AppPath(p.Root, name)/rootfs` — the path
join helper `common.AppPath` is not among the source files; the exact shape
of the string is irrelevant to every claim. -/
def appRootfs (root appName : String) : String :=
  root ++ "/stage1/rootfs/opt/stage2/" ++ appName ++ "/rootfs"

/-- The fixed system mounts prepended ahead of the volume mounts
(lines 246-258). -/
def systemMounts (rfs : String) : List flyMount :=
  [{ HostPath := "", TargetPrefixPath := "", RelTargetPath := "/dev",
     Fs := "none", Flags := MS_REC ||| MS_SHARED },
   { HostPath := "/dev", TargetPrefixPath := rfs, RelTargetPath := "/dev",
     Fs := "none", Flags := MS_BIND ||| MS_REC },
   { HostPath := "", TargetPrefixPath := "", RelTargetPath := "/proc",
     Fs := "none", Flags := MS_REC ||| MS_SHARED },
   { HostPath := "/proc", TargetPrefixPath := rfs, RelTargetPath := "/proc",
     Fs := "none", Flags := MS_BIND ||| MS_REC },
   { HostPath := "", TargetPrefixPath := "", RelTargetPath := "/sys",
     Fs := "none", Flags := MS_REC ||| MS_SHARED },
   { HostPath := "/sys", TargetPrefixPath := rfs, RelTargetPath := "/sys",
     Fs := "none", Flags := MS_BIND ||| MS_REC },
   { HostPath := "tmpfs", TargetPrefixPath := rfs, RelTargetPath := "/tmp",
     Fs := "tmpfs", Flags := 0 }]

/-- The effective mount list computed for a given app: system mounts first,
then the evaluated volume mounts (lines 241-260). -/
def stage1MountsFromApp (p : FlyPod) (a : FlyApp) (ks : List String) :
    FlyResult (List flyMount) :=
  andThen
    (evaluateMounts (appRootfs p.root a.name) a.mounts p.volumes
      (podImageMountPoints p a.name) ks)
    (fun l => .ok (systemMounts (appRootfs p.root a.name) ++ l))

/-- The mount-planning part of `stage1` (lines 219-260): a pod whose
manifest does not declare exactly one app hits `log.Fatalf` before any
mount is evaluated; otherwise all pod-level mounts are read from
`p.Manifest.Apps[0]`. -/
def stage1Mounts (p : FlyPod) (ks : List String) : FlyResult (List flyMount) :=
  if p.apps.length == 1 then
    stage1MountsFromApp p (p.apps.getD 0 { name := "", mounts := [] }) ks
  else .fatal (.wrongAppCount p.apps.length)

/-- The failure classes of the `stage1` function (lines 205-339) that decide
the process exit code through explicit `return` statements. -/
inductive Stage1Step where
  | success
  | malformedUUID
  | loadPodFailure
  | rktLockFdFailure
  | cloExecFailure
  | ppidWriteFailure
  | execFailure
deriving DecidableEq

/-- The exit code `stage1` returns for each class: lines 209, 216, 233, 238
(`return 1`), line 317 (`return 4`), line 335 (`return 7`), line 338
(`return 0`). -/
def stage1ExitCode : Stage1Step → Nat
  | .success => 0
  | .malformedUUID => 1
  | .loadPodFailure => 1
  | .rktLockFdFailure => 1
  | .cloExecFailure => 1
  | .ppidWriteFailure => 4
  | .execFailure => 7

/-! ## Lemmas -/

/-! ### Order lemmas for the byte-wise comparison -/

theorem lexLeB_refl : ∀ l : List Char, lexLeB l l = true := by
  intro l
  induction l with
  | nil => rfl
  | cons a as ih => simp [lexLeB, ih]

theorem lexLeB_total : ∀ a b : List Char, lexLeB a b = true ∨ lexLeB b a = true := by
  intro a
  induction a with
  | nil => intro b; exact Or.inl rfl
  | cons x xs ih =>
    intro b
    cases b with
    | nil => exact Or.inr rfl
    | cons y ys =>
      by_cases hxy : x < y
      · exact Or.inl (by simp [lexLeB, hxy])
      · by_cases hyx : y < x
        · exact Or.inr (by simp [lexLeB, hyx, hxy])
        · rcases ih ys with h | h
          · exact Or.inl (by simp [lexLeB, hxy, hyx, h])
          · exact Or.inr (by simp [lexLeB, hxy, hyx, h])

theorem lexLeB_trans : ∀ a b c : List Char,
    lexLeB a b = true → lexLeB b c = true → lexLeB a c = true := by
  intro a
  induction a with
  | nil => intro b c _ _; rfl
  | cons x xs ih =>
    intro b c hab hbc
    cases b with
    | nil => simp [lexLeB] at hab
    | cons y ys =>
      cases c with
      | nil => simp [lexLeB] at hbc
      | cons z zs =>
        simp only [lexLeB] at hab hbc ⊢
        by_cases hxy : x < y
        · by_cases hyz : y < z
          · simp [lt_trans hxy hyz]
          · by_cases hzy : z < y
            · simp [lexLeB, hyz, hzy] at hbc
            · have hyz2 : y = z := le_antisymm (not_lt.mp hzy) (not_lt.mp hyz)
              subst hyz2
              simp [hxy]
        · by_cases hyx : y < x
          · simp [lexLeB, hxy, hyx] at hab
          · have hxy2 : x = y := le_antisymm (not_lt.mp hyx) (not_lt.mp hxy)
            subst hxy2
            simp only [lt_irrefl, if_false] at hab
            by_cases hyz : x < z
            · simp [hyz]
            · by_cases hzy : z < x
              · simp [lexLeB, hyz, hzy] at hbc
              · simp only [hyz, hzy, if_false] at hbc ⊢
                exact ih ys zs hab hbc

theorem lexLeB_antisymm : ∀ a b : List Char,
    lexLeB a b = true → lexLeB b a = true → a = b := by
  intro a
  induction a with
  | nil =>
    intro b _ hba
    cases b with
    | nil => rfl
    | cons y ys => simp [lexLeB] at hba
  | cons x xs ih =>
    intro b hab hba
    cases b with
    | nil => simp [lexLeB] at hab
    | cons y ys =>
      by_cases hxy : x < y
      · simp [lexLeB, hxy, lt_asymm hxy] at hba
      · by_cases hyx : y < x
        · simp [lexLeB, hxy, hyx] at hab
        · have hxy2 : x = y := le_antisymm (not_lt.mp hyx) (not_lt.mp hxy)
          subst hxy2
          simp only [lexLeB, lt_irrefl, if_false] at hab hba
          exact congrArg (x :: ·) (ih ys hab hba)

/-- A proper extension of a list is strictly greater in the byte-wise order:
the parent path is `≤` the child and the child is not `≤` the parent. -/
theorem lexLeB_append : ∀ (l r : List Char), r ≠ [] →
    lexLeB l (l ++ r) = true ∧ lexLeB (l ++ r) l = false := by
  intro l
  induction l with
  | nil =>
    intro r hr
    cases r with
    | nil => exact absurd rfl hr
    | cons c cs => exact ⟨rfl, rfl⟩
  | cons x xs ih =>
    intro r hr
    have h := ih r hr
    constructor
    · simp [lexLeB, h.1]
    · simp [lexLeB, h.2]

theorem strLe_antisymm {a b : String} (hab : strLe a b) (hba : strLe b a) : a = b := by
  cases a with
  | mk da =>
    cases b with
    | mk db => exact congrArg String.mk (lexLeB_antisymm da db hab hba)

/-- `s` is strictly below `s ++ "/" ++ rest` in the byte-wise order. -/
theorem strLe_of_strict_extension {x y : String}
    (h : hasPrefixStr (x ++ "/") y = true) :
    strLe x y ∧ ¬ strLe y x ∧ x ≠ y := by
  have hy : ∃ t, y.data = x.data ++ ('/' :: t) := by
    have hpre : (x ++ "/").data <+: y.data := (List.isPrefixOf_iff_prefix).mp h
    rcases hpre with ⟨t, ht⟩
    refine ⟨t, ?_⟩
    rw [← ht]
    simp [String.data_append]
  rcases hy with ⟨t, ht⟩
  have h1 := lexLeB_append x.data ('/' :: t) (by simp)
  refine ⟨?_, ?_, ?_⟩
  · show lexLeB x.data y.data = true
    rw [ht]; exact h1.1
  · show ¬ lexLeB y.data x.data = true
    rw [ht]; simp [h1.2]
  · intro hxy
    have h2 : x.data = x.data ++ ('/' :: t) := by
      conv_lhs => rw [hxy]
      exact ht
    simp at h2

/-! ### Deduplication lemmas -/

theorem dedupSeen_sublist : ∀ (l seen : List String), (dedupSeen l seen).Sublist l := by
  intro l
  induction l with
  | nil => intro seen; simp [dedupSeen]
  | cons a l ih =>
    intro seen
    cases h : seen.contains a with
    | true =>
      simp only [dedupSeen, h, if_true]
      exact (ih seen).trans (List.sublist_cons_self a l)
    | false =>
      simp only [dedupSeen, h, Bool.false_eq_true, if_false]
      exact (ih (a :: seen)).cons₂ a

theorem mem_dedupSeen : ∀ (l seen : List String) (s : String),
    s ∈ dedupSeen l seen ↔ s ∈ l ∧ s ∉ seen := by
  intro l
  induction l with
  | nil => intro seen s; simp [dedupSeen]
  | cons a l ih =>
    intro seen s
    cases h : seen.contains a with
    | true =>
      have ha : a ∈ seen := by simpa using h
      simp only [dedupSeen, h, if_true, ih, List.mem_cons]
      constructor
      · rintro ⟨hs, hns⟩; exact ⟨Or.inr hs, hns⟩
      · rintro ⟨hs | hs, hns⟩
        · exact absurd (hs ▸ ha) hns
        · exact ⟨hs, hns⟩
    | false =>
      have ha : a ∉ seen := by simpa using h
      simp only [dedupSeen, h, Bool.false_eq_true, if_false, List.mem_cons, ih]
      constructor
      · rintro (hs | ⟨hs, hns⟩)
        · subst hs; exact ⟨Or.inl rfl, ha⟩
        · have hs2 : s ∉ seen := fun hmem => hns (Or.inr hmem)
          exact ⟨Or.inr hs, hs2⟩
      · rintro ⟨hs | hs, hns⟩
        · exact Or.inl hs
        · by_cases hsa : s = a
          · exact Or.inl hsa
          · refine Or.inr ⟨hs, ?_⟩
            intro hmem
            rcases hmem with h1 | h1
            · exact hsa h1
            · exact hns h1

theorem dedupSeen_nodup : ∀ (l seen : List String), (dedupSeen l seen).Nodup := by
  intro l
  induction l with
  | nil => intro seen; simp [dedupSeen]
  | cons a l ih =>
    intro seen
    cases h : seen.contains a with
    | true => simp only [dedupSeen, h, if_true]; exact ih seen
    | false =>
      simp only [dedupSeen, h, Bool.false_eq_true, if_false]
      refine List.Nodup.cons ?_ (ih (a :: seen))
      intro hmem
      have hm := (mem_dedupSeen l (a :: seen) a).mp hmem
      exact hm.2 (List.mem_cons_self a seen)

theorem dedupFirstSeen_sublist (l : List String) : (dedupFirstSeen l).Sublist l :=
  dedupSeen_sublist l []

theorem mem_dedupFirstSeen (l : List String) (s : String) :
    s ∈ dedupFirstSeen l ↔ s ∈ l := by
  simp [dedupFirstSeen, mem_dedupSeen]

theorem dedupFirstSeen_nodup (l : List String) : (dedupFirstSeen l).Nodup :=
  dedupSeen_nodup l []

/-! ### Sorting lemmas -/

theorem sorted_gcRemountSeq (ms : List String) : (gcRemountSeq ms).Sorted strLe := by
  have instT : IsTotal String strLe := ⟨fun a b => lexLeB_total a.data b.data⟩
  have instTr : IsTrans String strLe := ⟨fun a b c => lexLeB_trans a.data b.data c.data⟩
  exact List.sorted_insertionSort strLe ms

theorem sorted_gcUnmountSeq (ms : List String) : (gcUnmountSeq ms).Sorted strGe := by
  have instT : IsTotal String strGe := ⟨fun a b => lexLeB_total b.data a.data⟩
  have instTr : IsTrans String strGe :=
    ⟨fun a b c hab hbc => lexLeB_trans c.data b.data a.data hbc hab⟩
  exact List.sorted_insertionSort strGe ms

theorem perm_gcRemountSeq (ms : List String) : (gcRemountSeq ms).Perm ms :=
  List.perm_insertionSort strLe ms

theorem perm_gcUnmountSeq (ms : List String) : (gcUnmountSeq ms).Perm ms :=
  List.perm_insertionSort strGe ms

/-- In a list sorted descending (`strGe`), a strictly smaller element appears
at a strictly later position: positions of `y` and `x` with `x ≤ y`, `x ≠ y`
satisfy `index y < index x`. -/
theorem sorted_desc_positions {l : List String} (hs : l.Sorted strGe)
    {x y : String} (hx : x ∈ l) (hy : y ∈ l) (hxy : strLe x y) (hne : x ≠ y) :
    ∃ i j : Fin l.length, i.val < j.val ∧ l.get i = y ∧ l.get j = x := by
  obtain ⟨iy, hiy, hgy⟩ := List.getElem_of_mem hy
  obtain ⟨ix, hix, hgx⟩ := List.getElem_of_mem hx
  have hpw : l.Pairwise strGe := hs
  rcases lt_trichotomy iy ix with h | h | h
  · refine ⟨⟨iy, hiy⟩, ⟨ix, hix⟩, h, ?_, ?_⟩
    · simpa [List.get_eq_getElem] using hgy
    · simpa [List.get_eq_getElem] using hgx
  · exfalso
    apply hne
    subst h
    rw [← hgx, ← hgy]
  · exfalso
    have hge := (List.pairwise_iff_getElem.mp hpw) ix iy hix hiy h
    rw [hgx, hgy] at hge
    exact hne (strLe_antisymm hxy hge)

/-! ### Map lemmas (`lookupNVM` / `insertNVM`) -/

theorem lookupNVM_nil (k : String) : lookupNVM [] k = none := rfl

theorem lookupNVM_cons (q : String × volumeMountTuple) (rest : NVM) (k2 : String) :
    lookupNVM (q :: rest) k2 = if q.1 == k2 then some q.2 else lookupNVM rest k2 := by
  cases h : (q.1 == k2) with
  | true => simp [lookupNVM, List.find?, h]
  | false => simp [lookupNVM, List.find?, h]

theorem lookupNVM_insert (m : NVM) (k k2 : String) (t : volumeMountTuple) :
    lookupNVM (insertNVM m k t) k2 = if k2 = k then some t else lookupNVM m k2 := by
  induction m with
  | nil =>
    show lookupNVM [(k, t)] k2 = _
    rw [lookupNVM_cons]
    by_cases h : k2 = k
    · simp [h]
    · simp [h, Ne.symm h]
  | cons p rest ih =>
    cases hp : (p.1 == k) with
    | true =>
      have hp2 : p.1 = k := by simpa using hp
      have hstep : insertNVM (p :: rest) k t = (k, t) :: rest := by
        simp [insertNVM, hp]
      rw [hstep, lookupNVM_cons]
      by_cases h : k2 = k
      · simp [h]
      · have hkk2 : (k == k2) = false := by simp [Ne.symm h]
        have hpk2 : (p.1 == k2) = false := by simp [hp2, Ne.symm h]
        simp [hkk2, h, lookupNVM_cons, hpk2]
    | false =>
      have hp2 : ¬ p.1 = k := by simpa using hp
      have hstep : insertNVM (p :: rest) k t = p :: insertNVM rest k t := by
        simp [insertNVM, hp]
      rw [hstep, lookupNVM_cons]
      cases hq : (p.1 == k2) with
      | true =>
        have hq2 : p.1 = k2 := by simpa using hq
        have hk2k : ¬ k2 = k := fun c => hp2 (hq2.trans c)
        simp [hk2k, lookupNVM_cons, hq]
      | false =>
        simp [hq, ih, lookupNVM_cons]

/-! ### Loop 1: `seedMounts` -/

theorem seedMounts_ok (mounts : List SchemaMount) :
    ∀ acc : NVM, (mounts.map (fun x => x.volume)).Nodup →
    (∀ m ∈ mounts, lookupNVM acc m.volume = none) →
    ∃ m1, seedMounts mounts acc = .ok m1 ∧
      (∀ m ∈ mounts, lookupNVM m1 m.volume = some ⟨zeroVolume, m⟩) ∧
      (∀ k, k ∉ mounts.map (fun x => x.volume) → lookupNVM m1 k = lookupNVM acc k) := by
  induction mounts with
  | nil =>
    intro acc _ _
    exact ⟨acc, rfl, by simp, fun k _ => rfl⟩
  | cons m0 rest ih =>
    intro acc hnd hfresh
    have h0 : lookupNVM acc m0.volume = none := hfresh m0 (List.mem_cons_self m0 rest)
    rw [List.map_cons] at hnd
    have hnds := List.nodup_cons.mp hnd
    have hfresh2 : ∀ m ∈ rest,
        lookupNVM (insertNVM acc m0.volume ⟨zeroVolume, m0⟩) m.volume = none := by
      intro m hm
      have hNe : m.volume ≠ m0.volume := by
        intro c
        exact hnds.1 (c ▸ List.mem_map_of_mem (fun x => x.volume) hm)
      rw [lookupNVM_insert, if_neg hNe]
      exact hfresh m (List.mem_cons_of_mem m0 hm)
    obtain ⟨m1, hrun, hlook, hstab⟩ :=
      ih (insertNVM acc m0.volume ⟨zeroVolume, m0⟩) hnds.2 hfresh2
    refine ⟨m1, ?_, ?_, ?_⟩
    · show seedMounts (m0 :: rest) acc = .ok m1
      simp only [seedMounts, h0]
      exact hrun
    · intro m hm
      rcases List.mem_cons.mp hm with he | he
      · subst he
        rw [hstab m.volume hnds.1, lookupNVM_insert]
        simp
      · exact hlook m he
    · intro k hk
      have hk1 : k ≠ m0.volume := fun c => hk (by simp [c])
      have hk2 : k ∉ rest.map (fun x => x.volume) := fun c => hk (by simp [c])
      rw [hstab k hk2, lookupNVM_insert, if_neg hk1]

theorem seedMounts_fatal (mounts : List SchemaMount) :
    ∀ acc : NVM,
    (¬ (mounts.map (fun x => x.volume)).Nodup ∨ ∃ m ∈ mounts, lookupNVM acc m.volume ≠ none) →
    ∃ v, seedMounts mounts acc = .fatal (.duplicatedMount v) := by
  induction mounts with
  | nil =>
    intro acc h
    rcases h with h | ⟨m, hm, _⟩
    · exact absurd (by simp) h
    · exact absurd hm (List.not_mem_nil m)
  | cons m0 rest ih =>
    intro acc h
    cases h0 : lookupNVM acc m0.volume with
    | some t =>
      exact ⟨m0.volume, by simp only [seedMounts, h0]⟩
    | none =>
      have hstep : seedMounts (m0 :: rest) acc =
          seedMounts rest (insertNVM acc m0.volume ⟨zeroVolume, m0⟩) := by
        simp only [seedMounts, h0]
      rw [hstep]
      apply ih
      rcases h with hnd | ⟨m, hm, hne⟩
      · by_cases hin : m0.volume ∈ rest.map (fun x => x.volume)
        · right
          obtain ⟨m, hm, hveq⟩ := List.mem_map.mp hin
          refine ⟨m, hm, ?_⟩
          rw [lookupNVM_insert]
          have hveq2 : m.volume = m0.volume := hveq
          rw [if_pos hveq2]
          simp
        · left
          intro hnd2
          apply hnd
          simp only [List.map_cons]
          exact List.nodup_cons.mpr ⟨hin, hnd2⟩
      · rcases List.mem_cons.mp hm with he | he
        · subst he
          exact absurd h0 hne
        · right
          refine ⟨m, he, ?_⟩
          rw [lookupNVM_insert]
          by_cases hc : m.volume = m0.volume
          · rw [if_pos hc]; simp
          · rw [if_neg hc]; exact hne

theorem seedMounts_wf (mounts : List SchemaMount) :
    ∀ acc m1, seedMounts mounts acc = .ok m1 →
    (∀ k t, lookupNVM acc k = some t → t.M.volume = k) →
    ∀ k t, lookupNVM m1 k = some t → t.M.volume = k := by
  induction mounts with
  | nil =>
    intro acc m1 h hwf
    injection h with h2
    subst h2
    exact hwf
  | cons m0 rest ih =>
    intro acc m1 h hwf
    cases h0 : lookupNVM acc m0.volume with
    | some t =>
      have hstep : seedMounts (m0 :: rest) acc = .fatal (.duplicatedMount m0.volume) := by
        simp only [seedMounts, h0]
      rw [hstep] at h
      simp at h
    | none =>
      have hstep : seedMounts (m0 :: rest) acc =
          seedMounts rest (insertNVM acc m0.volume ⟨zeroVolume, m0⟩) := by
        simp only [seedMounts, h0]
      rw [hstep] at h
      apply ih _ m1 h
      intro k t hl
      rw [lookupNVM_insert] at hl
      by_cases hc : k = m0.volume
      · rw [if_pos hc] at hl
        injection hl with ht
        subst ht
        exact hc.symm
      · rw [if_neg hc] at hl
        exact hwf k t hl

theorem seedMounts_stable (mounts : List SchemaMount) :
    ∀ acc m1, seedMounts mounts acc = .ok m1 →
    ∀ k, k ∉ mounts.map (fun x => x.volume) → lookupNVM m1 k = lookupNVM acc k := by
  induction mounts with
  | nil =>
    intro acc m1 h k _
    injection h with h2
    subst h2
    rfl
  | cons m0 rest ih =>
    intro acc m1 h k hk
    have hk1 : k ≠ m0.volume := fun c => hk (by simp [c])
    have hk2 : k ∉ rest.map (fun x => x.volume) := fun c => hk (by simp [c])
    cases h0 : lookupNVM acc m0.volume with
    | some t =>
      have hstep : seedMounts (m0 :: rest) acc = .fatal (.duplicatedMount m0.volume) := by
        simp only [seedMounts, h0]
      rw [hstep] at h
      simp at h
    | none =>
      have hstep : seedMounts (m0 :: rest) acc =
          seedMounts rest (insertNVM acc m0.volume ⟨zeroVolume, m0⟩) := by
        simp only [seedMounts, h0]
      rw [hstep] at h
      rw [ih _ m1 h k hk2, lookupNVM_insert, if_neg hk1]

/-! ### Loop 2: `mergeMountPoints` -/

theorem mergeMountPoints_preserves (mps : List MountPoint) :
    ∀ acc m2, mergeMountPoints mps acc = .ok m2 →
    ∀ k t, lookupNVM acc k = some t → lookupNVM m2 k = some t := by
  induction mps with
  | nil =>
    intro acc m2 h k t hk
    injection h with h2
    subst h2
    exact hk
  | cons mp0 rest ih =>
    intro acc m2 h k t hk
    cases h0 : lookupNVM acc mp0.name with
    | some t0 =>
      by_cases hp : t0.M.path = mp0.path
      · have hstep : mergeMountPoints (mp0 :: rest) acc = mergeMountPoints rest acc := by
          simp [mergeMountPoints, h0, hp]
        rw [hstep] at h
        exact ih acc m2 h k t hk
      · have hstep : mergeMountPoints (mp0 :: rest) acc =
            .errRes (.conflictingPath mp0.name) := by
          simp [mergeMountPoints, h0, hp]
        rw [hstep] at h
        simp at h
    | none =>
      have hstep : mergeMountPoints (mp0 :: rest) acc =
          mergeMountPoints rest
            (insertNVM acc mp0.name ⟨zeroVolume, { volume := mp0.name, path := mp0.path }⟩) := by
        simp [mergeMountPoints, h0]
      rw [hstep] at h
      apply ih _ m2 h k t
      rw [lookupNVM_insert]
      by_cases hkn : k = mp0.name
      · rw [hkn, h0] at hk
        simp at hk
      · rw [if_neg hkn]
        exact hk

theorem mergeMountPoints_none (mps : List MountPoint) :
    ∀ acc m2, mergeMountPoints mps acc = .ok m2 →
    ∀ k, lookupNVM acc k = none → k ∉ mps.map (fun x => x.name) →
    lookupNVM m2 k = none := by
  induction mps with
  | nil =>
    intro acc m2 h k hk _
    injection h with h2
    subst h2
    exact hk
  | cons mp0 rest ih =>
    intro acc m2 h k hk hkn
    have hkmp : k ≠ mp0.name := fun c => hkn (by simp [c])
    have hkrest : k ∉ rest.map (fun x => x.name) := fun c => hkn (by simp [c])
    cases h0 : lookupNVM acc mp0.name with
    | some t0 =>
      by_cases hp : t0.M.path = mp0.path
      · have hstep : mergeMountPoints (mp0 :: rest) acc = mergeMountPoints rest acc := by
          simp [mergeMountPoints, h0, hp]
        rw [hstep] at h
        exact ih acc m2 h k hk hkrest
      · have hstep : mergeMountPoints (mp0 :: rest) acc =
            .errRes (.conflictingPath mp0.name) := by
          simp [mergeMountPoints, h0, hp]
        rw [hstep] at h
        simp at h
    | none =>
      have hstep : mergeMountPoints (mp0 :: rest) acc =
          mergeMountPoints rest
            (insertNVM acc mp0.name ⟨zeroVolume, { volume := mp0.name, path := mp0.path }⟩) := by
        simp [mergeMountPoints, h0]
      rw [hstep] at h
      apply ih _ m2 h k _ hkrest
      rw [lookupNVM_insert, if_neg hkmp]
      exact hk

theorem mergeMountPoints_wf (mps : List MountPoint) :
    ∀ acc m2, mergeMountPoints mps acc = .ok m2 →
    (∀ k t, lookupNVM acc k = some t → t.M.volume = k) →
    ∀ k t, lookupNVM m2 k = some t → t.M.volume = k := by
  induction mps with
  | nil =>
    intro acc m2 h hwf
    injection h with h2
    subst h2
    exact hwf
  | cons mp0 rest ih =>
    intro acc m2 h hwf
    cases h0 : lookupNVM acc mp0.name with
    | some t0 =>
      by_cases hp : t0.M.path = mp0.path
      · have hstep : mergeMountPoints (mp0 :: rest) acc = mergeMountPoints rest acc := by
          simp [mergeMountPoints, h0, hp]
        rw [hstep] at h
        exact ih acc m2 h hwf
      · have hstep : mergeMountPoints (mp0 :: rest) acc =
            .errRes (.conflictingPath mp0.name) := by
          simp [mergeMountPoints, h0, hp]
        rw [hstep] at h
        simp at h
    | none =>
      have hstep : mergeMountPoints (mp0 :: rest) acc =
          mergeMountPoints rest
            (insertNVM acc mp0.name ⟨zeroVolume, { volume := mp0.name, path := mp0.path }⟩) := by
        simp [mergeMountPoints, h0]
      rw [hstep] at h
      apply ih _ m2 h
      intro k t hl
      rw [lookupNVM_insert] at hl
      by_cases hc : k = mp0.name
      · rw [if_pos hc] at hl
        injection hl with ht
        subst ht
        exact hc.symm
      · rw [if_neg hc] at hl
        exact hwf k t hl

theorem mergeMountPoints_conflict (mps : List MountPoint) :
    ∀ acc (mp : MountPoint) t, mp ∈ mps → lookupNVM acc mp.name = some t →
    t.M.path ≠ mp.path →
    ∃ name, mergeMountPoints mps acc = .errRes (.conflictingPath name) := by
  induction mps with
  | nil =>
    intro acc mp t hm _ _
    exact absurd hm (List.not_mem_nil mp)
  | cons mp0 rest ih =>
    intro acc mp t hm hl hp
    cases h0 : lookupNVM acc mp0.name with
    | some t0 =>
      by_cases hp0 : t0.M.path = mp0.path
      · have hstep : mergeMountPoints (mp0 :: rest) acc = mergeMountPoints rest acc := by
          simp [mergeMountPoints, h0, hp0]
        rw [hstep]
        rcases List.mem_cons.mp hm with he | he
        · exfalso
          subst he
          rw [hl] at h0
          injection h0 with ht
          rw [← ht] at hp0
          exact hp hp0
        · exact ih acc mp t he hl hp
      · exact ⟨mp0.name, by simp [mergeMountPoints, h0, hp0]⟩
    | none =>
      have hstep : mergeMountPoints (mp0 :: rest) acc =
          mergeMountPoints rest
            (insertNVM acc mp0.name ⟨zeroVolume, { volume := mp0.name, path := mp0.path }⟩) := by
        simp [mergeMountPoints, h0]
      rw [hstep]
      rcases List.mem_cons.mp hm with he | he
      · exfalso
        subst he
        rw [h0] at hl
        simp at hl
      · apply ih _ mp t he _ hp
        rw [lookupNVM_insert]
        by_cases hc : mp.name = mp0.name
        · exfalso
          rw [hc, h0] at hl
          simp at hl
        · rw [if_neg hc]
          exact hl

/-! ### Loop 3: `insertVolumes` -/

theorem insertVolumes_stable (volumes : List Volume) :
    ∀ acc m3, insertVolumes volumes acc = .ok m3 →
    ∀ k, k ∉ volumes.map (fun x => x.name) → lookupNVM m3 k = lookupNVM acc k := by
  induction volumes with
  | nil =>
    intro acc m3 h k _
    injection h with h2
    subst h2
    rfl
  | cons v0 rest ih =>
    intro acc m3 h k hk
    have hk0 : k ≠ v0.name := fun c => hk (by simp [c])
    have hkr : k ∉ rest.map (fun x => x.name) := fun c => hk (by simp [c])
    cases h0 : lookupNVM acc v0.name with
    | none =>
      have hstep : insertVolumes (v0 :: rest) acc = .errRes (.missingMount v0.name) := by
        simp [insertVolumes, h0]
      rw [hstep] at h
      simp at h
    | some t =>
      by_cases hm : t.M.volume = v0.name
      · have hstep : insertVolumes (v0 :: rest) acc =
            insertVolumes rest (insertNVM acc v0.name ⟨v0, t.M⟩) := by
          simp [insertVolumes, h0, hm]
        rw [hstep] at h
        rw [ih _ m3 h k hkr, lookupNVM_insert, if_neg hk0]
      · have hstep : insertVolumes (v0 :: rest) acc =
            .errRes (.mismatchedPair v0.name t.M.volume) := by
          simp [insertVolumes, h0, hm]
        rw [hstep] at h
        simp at h

theorem insertVolumes_missing (volumes : List Volume) :
    ∀ acc : NVM, (∀ k t, lookupNVM acc k = some t → t.M.volume = k) →
    (∃ v ∈ volumes, lookupNVM acc v.name = none) →
    ∃ name, insertVolumes volumes acc = .errRes (.missingMount name) := by
  induction volumes with
  | nil =>
    rintro acc _ ⟨v, hv, _⟩
    exact absurd hv (List.not_mem_nil v)
  | cons v0 rest ih =>
    intro acc hwf hex
    cases h0 : lookupNVM acc v0.name with
    | none =>
      exact ⟨v0.name, by simp [insertVolumes, h0]⟩
    | some t =>
      have hm : t.M.volume = v0.name := hwf v0.name t h0
      have hstep : insertVolumes (v0 :: rest) acc =
          insertVolumes rest (insertNVM acc v0.name ⟨v0, t.M⟩) := by
        simp [insertVolumes, h0, hm]
      rw [hstep]
      apply ih
      · intro k t2 hl
        rw [lookupNVM_insert] at hl
        by_cases hc : k = v0.name
        · rw [if_pos hc] at hl
          injection hl with ht
          subst ht
          exact hm.trans hc.symm
        · rw [if_neg hc] at hl
          exact hwf k t2 hl
      · obtain ⟨v, hv, hnone⟩ := hex
        rcases List.mem_cons.mp hv with he | he
        · exfalso
          subst he
          rw [hnone] at h0
          simp at h0
        · refine ⟨v, he, ?_⟩
          rw [lookupNVM_insert]
          by_cases hc : v.name = v0.name
          · exfalso
            rw [← hc] at h0
            rw [hnone] at h0
            simp at h0
          · rw [if_neg hc]
            exact hnone

theorem insertVolumes_lookup (volumes : List Volume) :
    ∀ acc m3 (v : Volume), insertVolumes volumes acc = .ok m3 →
    (volumes.map (fun x => x.name)).Nodup → v ∈ volumes →
    ∃ t, lookupNVM acc v.name = some t ∧ lookupNVM m3 v.name = some ⟨v, t.M⟩ := by
  induction volumes with
  | nil =>
    intro acc m3 v _ _ hv
    exact absurd hv (List.not_mem_nil v)
  | cons v0 rest ih =>
    intro acc m3 v h hnd hv
    rw [List.map_cons] at hnd
    have hnds := List.nodup_cons.mp hnd
    cases h0 : lookupNVM acc v0.name with
    | none =>
      have hstep : insertVolumes (v0 :: rest) acc = .errRes (.missingMount v0.name) := by
        simp [insertVolumes, h0]
      rw [hstep] at h
      simp at h
    | some t0 =>
      by_cases hm : t0.M.volume = v0.name
      · have hstep : insertVolumes (v0 :: rest) acc =
            insertVolumes rest (insertNVM acc v0.name ⟨v0, t0.M⟩) := by
          simp [insertVolumes, h0, hm]
        rw [hstep] at h
        rcases List.mem_cons.mp hv with he | he
        · subst he
          refine ⟨t0, h0, ?_⟩
          rw [insertVolumes_stable rest _ m3 h v.name hnds.1, lookupNVM_insert]
          simp
        · have hvne : v.name ≠ v0.name := by
            intro c
            exact hnds.1 (c ▸ List.mem_map_of_mem (fun x => x.name) he)
          obtain ⟨t, hta, htm⟩ := ih _ m3 v h hnds.2 he
          refine ⟨t, ?_, htm⟩
          rw [lookupNVM_insert, if_neg hvne] at hta
          exact hta
      · have hstep : insertVolumes (v0 :: rest) acc =
            .errRes (.mismatchedPair v0.name t0.M.volume) := by
          simp [insertVolumes, h0, hm]
        rw [hstep] at h
        simp at h

/-! ### Loop 4: `fillReadOnly` -/

theorem fillReadOnly_stable_set (mps : List MountPoint) :
    ∀ acc m4 k t, fillReadOnly mps acc = .ok m4 →
    lookupNVM acc k = some t → t.V.readOnly ≠ none → lookupNVM m4 k = some t := by
  induction mps with
  | nil =>
    intro acc m4 k t h hk _
    injection h with h2
    subst h2
    exact hk
  | cons mp0 rest ih =>
    intro acc m4 k t h hk hro
    cases h0 : lookupNVM acc mp0.name with
    | none =>
      have hstep : fillReadOnly (mp0 :: rest) acc = .fatal (.missingVolume mp0.name) := by
        simp [fillReadOnly, h0]
      rw [hstep] at h
      simp at h
    | some t0 =>
      by_cases hname : t0.V.name = ""
      · have hstep : fillReadOnly (mp0 :: rest) acc = .fatal (.missingVolume mp0.name) := by
          simp [fillReadOnly, h0, hname]
        rw [hstep] at h
        simp at h
      · cases hro0 : t0.V.readOnly with
        | none =>
          have hstep : fillReadOnly (mp0 :: rest) acc =
              fillReadOnly rest
                (insertNVM acc mp0.name ⟨{ t0.V with readOnly := some mp0.readOnly }, t0.M⟩) := by
            simp [fillReadOnly, h0, hname, hro0]
          rw [hstep] at h
          apply ih _ m4 k t h _ hro
          rw [lookupNVM_insert]
          by_cases hc : k = mp0.name
          · exfalso
            rw [hc, h0] at hk
            injection hk with ht
            exact hro (ht ▸ hro0)
          · rw [if_neg hc]
            exact hk
        | some b =>
          have hstep : fillReadOnly (mp0 :: rest) acc = fillReadOnly rest acc := by
            simp [fillReadOnly, h0, hname, hro0]
          rw [hstep] at h
          exact ih _ m4 k t h hk hro

theorem fillReadOnly_sets (mps : List MountPoint) :
    ∀ acc m4 k t, fillReadOnly mps acc = .ok m4 →
    lookupNVM acc k = some t → t.V.readOnly = none →
    (∃ mp ∈ mps, mp.name = k) →
    (∀ mp ∈ mps, mp.name = k → mp.readOnly = true) →
    lookupNVM m4 k = some ⟨{ t.V with readOnly := some true }, t.M⟩ := by
  induction mps with
  | nil =>
    rintro acc m4 k t _ _ _ ⟨mp, hmp, _⟩ _
    exact absurd hmp (List.not_mem_nil mp)
  | cons mp0 rest ih =>
    intro acc m4 k t h hk hro hex hall
    cases h0 : lookupNVM acc mp0.name with
    | none =>
      have hstep : fillReadOnly (mp0 :: rest) acc = .fatal (.missingVolume mp0.name) := by
        simp [fillReadOnly, h0]
      rw [hstep] at h
      simp at h
    | some t0 =>
      by_cases hname : t0.V.name = ""
      · have hstep : fillReadOnly (mp0 :: rest) acc = .fatal (.missingVolume mp0.name) := by
          simp [fillReadOnly, h0, hname]
        rw [hstep] at h
        simp at h
      · by_cases hc : mp0.name = k
        · have ht0 : t0 = t := by
            rw [hc, hk] at h0
            injection h0 with ht
            exact ht.symm
          have hro0 : t0.V.readOnly = none := by rw [ht0]; exact hro
          have hmp0ro : mp0.readOnly = true := hall mp0 (List.mem_cons_self mp0 rest) hc
          have hstep : fillReadOnly (mp0 :: rest) acc =
              fillReadOnly rest
                (insertNVM acc mp0.name ⟨{ t0.V with readOnly := some mp0.readOnly }, t0.M⟩) := by
            simp [fillReadOnly, h0, hname, hro0]
          rw [hstep] at h
          have hins : lookupNVM
              (insertNVM acc mp0.name ⟨{ t0.V with readOnly := some mp0.readOnly }, t0.M⟩) k =
              some ⟨{ t.V with readOnly := some true }, t.M⟩ := by
            rw [lookupNVM_insert, if_pos hc.symm, ht0, hmp0ro]
          exact fillReadOnly_stable_set rest _ m4 k _ h hins (by simp)
        · have hexr : ∃ mp ∈ rest, mp.name = k := by
            obtain ⟨mp, hmp, hmpk⟩ := hex
            rcases List.mem_cons.mp hmp with he | he
            · exact absurd (he ▸ hmpk) hc
            · exact ⟨mp, he, hmpk⟩
          have hallr : ∀ mp ∈ rest, mp.name = k → mp.readOnly = true :=
            fun mp hm hk2 => hall mp (List.mem_cons_of_mem mp0 hm) hk2
          cases hro0 : t0.V.readOnly with
          | none =>
            have hstep : fillReadOnly (mp0 :: rest) acc =
                fillReadOnly rest
                  (insertNVM acc mp0.name
                    ⟨{ t0.V with readOnly := some mp0.readOnly }, t0.M⟩) := by
              simp [fillReadOnly, h0, hname, hro0]
            rw [hstep] at h
            apply ih _ m4 k t h _ hro hexr hallr
            rw [lookupNVM_insert, if_neg (fun c => hc c.symm)]
            exact hk
          | some b =>
            have hstep : fillReadOnly (mp0 :: rest) acc = fillReadOnly rest acc := by
              simp [fillReadOnly, h0, hname, hro0]
            rw [hstep] at h
            exact ih _ m4 k t h hk hro hexr hallr

/-! ### `reconcile` and `evaluateMounts` plumbing -/

theorem reconcile_parts {mounts : List SchemaMount} {volumes : List Volume}
    {mountPoints : List MountPoint} {m4 : NVM} :
    reconcile mounts volumes mountPoints = .ok m4 →
    ∃ m1 m2 m3, seedMounts mounts [] = .ok m1 ∧ mergeMountPoints mountPoints m1 = .ok m2 ∧
      insertVolumes volumes m2 = .ok m3 ∧ fillReadOnly mountPoints m3 = .ok m4 := by
  intro h
  unfold reconcile at h
  cases h1 : seedMounts mounts [] with
  | errRes e => rw [h1] at h; simp [andThen] at h
  | fatal e => rw [h1] at h; simp [andThen] at h
  | ok m1 =>
    rw [h1] at h
    simp only [andThen] at h
    cases h2 : mergeMountPoints mountPoints m1 with
    | errRes e => rw [h2] at h; simp [andThen] at h
    | fatal e => rw [h2] at h; simp [andThen] at h
    | ok m2 =>
      rw [h2] at h
      simp only [andThen] at h
      cases h3 : insertVolumes volumes m2 with
      | errRes e => rw [h3] at h; simp [andThen] at h
      | fatal e => rw [h3] at h; simp [andThen] at h
      | ok m3 =>
        rw [h3] at h
        simp only [andThen] at h
        exact ⟨m1, m2, m3, rfl, h2, h3, h⟩

theorem reconcile_fatal_seed {mounts : List SchemaMount} (volumes : List Volume)
    (mountPoints : List MountPoint) {e : FlyErr} :
    seedMounts mounts [] = .fatal e → reconcile mounts volumes mountPoints = .fatal e := by
  intro h
  unfold reconcile
  rw [h]
  rfl

theorem reconcile_err_merge {mounts : List SchemaMount} (volumes : List Volume)
    {mountPoints : List MountPoint} {m1 : NVM} {e : FlyErr} :
    seedMounts mounts [] = .ok m1 → mergeMountPoints mountPoints m1 = .errRes e →
    reconcile mounts volumes mountPoints = .errRes e := by
  intro h1 h2
  unfold reconcile
  rw [h1]
  simp only [andThen]
  rw [h2]

theorem reconcile_err_insertVolumes {mounts : List SchemaMount} {volumes : List Volume}
    {mountPoints : List MountPoint} {m1 m2 : NVM} {e : FlyErr} :
    seedMounts mounts [] = .ok m1 → mergeMountPoints mountPoints m1 = .ok m2 →
    insertVolumes volumes m2 = .errRes e →
    reconcile mounts volumes mountPoints = .errRes e := by
  intro h1 h2 h3
  unfold reconcile
  rw [h1]
  simp only [andThen]
  rw [h2]
  simp only [andThen]
  rw [h3]

theorem evaluateMounts_ok_parts {rfs : String} {mounts : List SchemaMount}
    {volumes : List Volume} {mountPoints : List MountPoint} {ks : List String}
    {l : List flyMount} :
    evaluateMounts rfs mounts volumes mountPoints ks = .ok l →
    ∃ m4, reconcile mounts volumes mountPoints = .ok m4 ∧
      l = ks.flatMap (fun k =>
        match lookupNVM m4 k with
        | some t => emitTuple rfs t
        | none => []) := by
  intro h
  unfold evaluateMounts at h
  cases h4 : reconcile mounts volumes mountPoints with
  | ok m4 =>
    rw [h4] at h
    simp only [andThen] at h
    injection h with h2
    exact ⟨m4, rfl, h2.symm⟩
  | errRes e => rw [h4] at h; simp [andThen] at h
  | fatal e => rw [h4] at h; simp [andThen] at h

theorem evaluateMounts_of_reconcile_ok (rfs : String) {mounts : List SchemaMount}
    {volumes : List Volume} {mountPoints : List MountPoint} (ks : List String) {m4 : NVM} :
    reconcile mounts volumes mountPoints = .ok m4 →
    evaluateMounts rfs mounts volumes mountPoints ks =
      .ok (ks.flatMap (fun k =>
        match lookupNVM m4 k with
        | some t => emitTuple rfs t
        | none => [])) := by
  intro h
  unfold evaluateMounts
  rw [h]
  rfl

theorem evaluateMounts_errRes (rfs : String) {mounts : List SchemaMount}
    {volumes : List Volume} {mountPoints : List MountPoint} (ks : List String) {e : FlyErr} :
    reconcile mounts volumes mountPoints = .errRes e →
    evaluateMounts rfs mounts volumes mountPoints ks = .errRes e := by
  intro h
  unfold evaluateMounts
  rw [h]
  rfl

theorem evaluateMounts_fatal (rfs : String) {mounts : List SchemaMount}
    {volumes : List Volume} {mountPoints : List MountPoint} (ks : List String) {e : FlyErr} :
    reconcile mounts volumes mountPoints = .fatal e →
    evaluateMounts rfs mounts volumes mountPoints ks = .fatal e := by
  intro h
  unfold evaluateMounts
  rw [h]
  rfl

/-! ### Emission lemmas -/

theorem flatMap_emit_eq (rfs : String) (m4 : NVM) :
    ∀ ks : List String,
    (ks.flatMap (fun k =>
      match lookupNVM m4 k with
      | some t => emitTuple rfs t
      | none => [])) =
    ((ks.filterMap (fun k => lookupNVM m4 k)).map (emitTuple rfs)).flatten := by
  intro ks
  induction ks with
  | nil => rfl
  | cons k ks ih =>
    cases h0 : lookupNVM m4 k with
    | some t => simp [List.flatMap_cons, List.filterMap_cons, h0, ih]
    | none => simp [List.flatMap_cons, List.filterMap_cons, h0, ih]

theorem emitTuple_eq_mountBlock (rfs : String) (t : volumeMountTuple) :
    emitTuple rfs t = mountBlock rfs t := by
  unfold emitTuple mountBlock
  cases h : t.V.readOnly with
  | none => simp
  | some b => cases b <;> simp

theorem roOp_mem_mountBlock (rfs : String) (t : volumeMountTuple) :
    roOp rfs t ∈ mountBlock rfs t ↔ t.V.readOnly = some true := by
  unfold mountBlock
  by_cases h : t.V.readOnly = some true
  · simp [h]
  · simp only [h, if_false, List.append_nil, iff_false]
    intro hmem
    rcases List.mem_cons.mp hmem with he | he
    · have hfl := congrArg flyMount.Flags he
      simp [roOp, markOp, roFlags, bindFlags, MS_BIND, MS_REC, MS_REMOUNT, MS_RDONLY,
        MS_SHARED] at hfl
    · rcases List.mem_cons.mp he with he2 | he2
      · have hfl := congrArg flyMount.Flags he2
        simp [roOp, bindOp, roFlags, bindFlags, MS_BIND, MS_REC, MS_REMOUNT, MS_RDONLY] at hfl
      · exact absurd he2 (List.not_mem_nil _)

/-! ## Claim theorems -/

/-- Claim C1, counterexample: the universal ordering guarantee fails as
stated.  On a table whose scan order lists the path-descendant `/p/a/b`
before `/p/a`, with both parent ids outside the matched set, the filter
returns the ancestor `/p/a` first, so a result entry whose mount point is a
filesystem descendant of another result entry's mount point appears after
that entry. -/
theorem getMountsForPrefix_order_counterexample :
    getMountsForPrefix "/p" ceMountTable = [⟨2, 60, "/p/a"⟩, ⟨1, 50, "/p/a/b"⟩] ∧
    mountMatches "/p" ⟨1, 50, "/p/a/b"⟩ = true ∧
    mountMatches "/p" ⟨2, 60, "/p/a"⟩ = true ∧
    descOf ⟨1, 50, "/p/a/b"⟩ ⟨2, 60, "/p/a"⟩ = true ∧
    descendantsFirst ( getMountsForPrefix "/p" ceMountTable) = false := by
  decide

/-- Claim C1, amended: on the 14-mount table of `TestMountOrdering`, rooted
at `/my/mount/prefix`, the filter returns exactly the 14 matching entries
(membership in both directions, and `/foo` does not match `/foobar`), in
the order of mount ids 219, 218, 217, 210, 209, 184, 183, 182, 146, 145,
180, 144, 121, 116, and in that result every entry whose mount point is a
filesystem descendant of another result entry's mount point appears
strictly before that entry. -/
theorem getMountsForPrefix_test_table :
    parseMountinfo testMountinfoLines = some testMountTable ∧
    ( getMountsForPrefix "/my/mount/prefix" testMountTable).map (fun m => m.id) =
      testExpectedIds ∧
    (testMountTable.filter (mountMatches "/my/mount/prefix")).map (fun m => m.id) =
      [116, 121, 146, 145, 144, 180, 184, 183, 182, 209, 219, 218, 217, 210] ∧
    (testMountTable.filter (mountMatches "/my/mount/prefix")).all
      (fun m => ( getMountsForPrefix "/my/mount/prefix" testMountTable).contains m) = true ∧
    ( getMountsForPrefix "/my/mount/prefix" testMountTable).all
      (fun m => mountMatches "/my/mount/prefix" m) = true ∧
    descendantsFirst ( getMountsForPrefix "/my/mount/prefix" testMountTable) = true ∧
    mountMatches "/foo" ⟨1, 0, "/foobar"⟩ = false := by
  decide

/-- Claim C2: for every mountinfo table and pod identifier on which the
reaper's scan succeeds, the mount list is the first-seen-order
deduplication of the mount-point fields of the matched lines (a nodup
sublist with the same members); the action sequence is all recursive-
private remounts in ascending lexicographic order followed by all unmounts
in descending lexicographic order; in the unmount pass every mount point
that extends another across a `/` appears strictly earlier (children before
parents); zero matched lines yield zero actions; and on the concrete table
with mount points `/a`, `/a/b`, `/a/b/c` the unmount sequence is exactly
`/a/b/c`, `/a/b`, `/a`. -/
theorem gc_reaper_order :
    ∀ (lines : List String) (podID : String) (ms : List String),
    gcMountList lines podID = some ms →
    (∃ es, gcExtract (gcMatchedLines lines podID) = some es ∧
      ms = dedupFirstSeen es ∧ ms.Sublist es ∧ ms.Nodup ∧ (∀ s, s ∈ ms ↔ s ∈ es)) ∧
    gcActions lines podID =
      some ((gcRemountSeq ms).map (fun d => GCAction.remount d (MS_REC ||| MS_PRIVATE)) ++
        (gcUnmountSeq ms).map (fun d => GCAction.unmount d 0)) ∧
    (gcRemountSeq ms).Sorted strLe ∧
    (gcRemountSeq ms).Perm ms ∧
    (gcUnmountSeq ms).Sorted strGe ∧
    (gcUnmountSeq ms).Perm ms ∧
    (∀ x y, x ∈ ms → y ∈ ms → hasPrefixStr (x ++ "/") y = true →
      ∃ i j : Fin (gcUnmountSeq ms).length, i.val < j.val ∧
        (gcUnmountSeq ms).get i = y ∧ (gcUnmountSeq ms).get j = x) ∧
    (ms = [] → gcActions lines podID = some []) ∧
    (gcMountList gcExampleLines "abc123" = some ["/a", "/a/b", "/a/b/c"] ∧
      gcRemountSeq ["/a", "/a/b", "/a/b/c"] = ["/a", "/a/b", "/a/b/c"] ∧
      gcUnmountSeq ["/a", "/a/b", "/a/b/c"] = ["/a/b/c", "/a/b", "/a"]) := by
  intro lines podID ms h
  cases hext : gcExtract (gcMatchedLines lines podID) with
  | none =>
    rw [gcMountList, hext] at h
    exact absurd h (by simp)
  | some es =>
    have hms : ms = dedupFirstSeen es := by
      rw [gcMountList, hext] at h
      exact (Option.some_inj.mp h).symm
    refine ⟨⟨es, rfl, hms, ?_, ?_, ?_⟩, ?_, sorted_gcRemountSeq ms, perm_gcRemountSeq ms,
      sorted_gcUnmountSeq ms, perm_gcUnmountSeq ms, ?_, ?_, by decide⟩
    · rw [hms]; exact dedupFirstSeen_sublist es
    · rw [hms]; exact dedupFirstSeen_nodup es
    · intro s; rw [hms]; exact mem_dedupFirstSeen es s
    · simp only [gcActions, h]
    · intro x y hx hy hpre
      obtain ⟨hle, _, hne⟩ := strLe_of_strict_extension hpre
      have hx2 : x ∈ gcUnmountSeq ms := ((perm_gcUnmountSeq ms).mem_iff).mpr hx
      have hy2 : y ∈ gcUnmountSeq ms := ((perm_gcUnmountSeq ms).mem_iff).mpr hy
      exact sorted_desc_positions (sorted_gcUnmountSeq ms) hx2 hy2 hle hne
    · intro h0
      simp only [gcActions, h, h0]
      simp [gcRemountSeq, gcUnmountSeq, List.insertionSort]

/-- Claim C2, witness: the theorem applied to the concrete three-line table
tagged `abc123`. -/
theorem gc_reaper_order_witness :
    gcActions gcExampleLines "abc123" =
      some ((gcRemountSeq ["/a", "/a/b", "/a/b/c"]).map
          (fun d => GCAction.remount d (MS_REC ||| MS_PRIVATE)) ++
        (gcUnmountSeq ["/a", "/a/b", "/a/b/c"]).map (fun d => GCAction.unmount d 0)) :=
  (gc_reaper_order gcExampleLines "abc123" ["/a", "/a/b", "/a/b/c"] (by decide)).2.1

/-- Claim C3: whenever `evaluateMounts` succeeds, its output is a
concatenation of per-volume blocks; each block is, in this fixed order, the
shared+recursive propagation mark of the host source (`markOp`), the
recursive bind of the host source onto the target beneath the rootfs
(`bindOp`), and — if and only if the resolved read-only flag is true — the
read-only remount of the target (`roOp`). -/
theorem evaluateMounts_triple_order :
    ∀ (rfs : String) (mounts : List SchemaMount) (volumes : List Volume)
      (mountPoints : List MountPoint) (ks : List String) (l : List flyMount),
    evaluateMounts rfs mounts volumes mountPoints ks = .ok l →
    ∃ ts : List volumeMountTuple,
      l = (ts.map (mountBlock rfs)).flatten ∧
      ∀ t ∈ ts, (roOp rfs t ∈ mountBlock rfs t ↔ t.V.readOnly = some true) := by
  intro rfs mounts volumes mountPoints ks l h
  obtain ⟨m4, hrec, hl⟩ := evaluateMounts_ok_parts h
  refine ⟨ks.filterMap (fun k => lookupNVM m4 k), ?_, ?_⟩
  · rw [hl, flatMap_emit_eq]
    congr 1
    exact List.map_congr_left (fun t _ => emitTuple_eq_mountBlock rfs t)
  · intro t _
    exact roOp_mem_mountBlock rfs t

/-- Claim C3, witness: the theorem applied to a single read-only volume. -/
theorem evaluateMounts_triple_order_witness :
    ∃ ts : List volumeMountTuple,
      emitTuple "/rfs" ⟨⟨"v", "/src", some true⟩, ⟨"v", "/tgt"⟩⟩ =
        (ts.map (mountBlock "/rfs")).flatten ∧
      ∀ t ∈ ts, (roOp "/rfs" t ∈ mountBlock "/rfs" t ↔ t.V.readOnly = some true) :=
  evaluateMounts_triple_order "/rfs" [⟨"v", "/tgt"⟩] [⟨"v", "/src", some true⟩] [] ["v"]
    (emitTuple "/rfs" ⟨⟨"v", "/src", some true⟩, ⟨"v", "/tgt"⟩⟩) (by decide)

/-- Claim C4: building the plan twice from the same inputs is deterministic
(identical iteration orders give identical lists), and for any two
iteration orders of the reconciled map (Go map `range` order is
unspecified but always covers the same keys) the outputs are permutations
of each other made of the same per-volume operation blocks — the relative
order can differ only between blocks of different volumes, never among the
dependent operations inside one block. -/
theorem evaluateMounts_plan_idempotent :
    ∀ (rfs : String) (mounts : List SchemaMount) (volumes : List Volume)
      (mountPoints : List MountPoint) (ks1 ks2 : List String) (l1 l2 : List flyMount),
    ks1.Perm ks2 →
    evaluateMounts rfs mounts volumes mountPoints ks1 = .ok l1 →
    evaluateMounts rfs mounts volumes mountPoints ks2 = .ok l2 →
    (ks1 = ks2 → l1 = l2) ∧ l1.Perm l2 ∧
    ∃ ts1 ts2 : List volumeMountTuple, ts1.Perm ts2 ∧
      l1 = (ts1.map (emitTuple rfs)).flatten ∧ l2 = (ts2.map (emitTuple rfs)).flatten := by
  intro rfs mounts volumes mountPoints ks1 ks2 l1 l2 hperm h1 h2
  obtain ⟨m4, hrec, hl1⟩ := evaluateMounts_ok_parts h1
  obtain ⟨m4b, hrecb, hl2⟩ := evaluateMounts_ok_parts h2
  have hm : m4b = m4 := by
    rw [hrec] at hrecb
    injection hrecb with x
    exact x.symm
  subst hm
  have hts : (ks1.filterMap (fun k => lookupNVM m4b k)).Perm
      (ks2.filterMap (fun k => lookupNVM m4b k)) := hperm.filterMap _
  refine ⟨?_, ?_, ks1.filterMap (fun k => lookupNVM m4b k),
    ks2.filterMap (fun k => lookupNVM m4b k), hts, ?_, ?_⟩
  · intro he
    subst he
    rw [h1] at h2
    exact FlyResult.ok.inj h2
  · rw [hl1, hl2, flatMap_emit_eq, flatMap_emit_eq]
    exact (hts.map (emitTuple rfs)).flatten
  · rw [hl1, flatMap_emit_eq]
  · rw [hl2, flatMap_emit_eq]

/-- Claim C4, witness: the theorem applied to two volumes iterated in the
two possible orders. -/
theorem evaluateMounts_plan_idempotent_witness :
    (["a", "b"] = ["b", "a"] →
      emitTuple "/rfs" ⟨⟨"a", "/sa", some false⟩, ⟨"a", "/ta"⟩⟩ ++
        emitTuple "/rfs" ⟨⟨"b", "/sb", some true⟩, ⟨"b", "/tb"⟩⟩ =
      emitTuple "/rfs" ⟨⟨"b", "/sb", some true⟩, ⟨"b", "/tb"⟩⟩ ++
        emitTuple "/rfs" ⟨⟨"a", "/sa", some false⟩, ⟨"a", "/ta"⟩⟩) ∧
    (emitTuple "/rfs" ⟨⟨"a", "/sa", some false⟩, ⟨"a", "/ta"⟩⟩ ++
      emitTuple "/rfs" ⟨⟨"b", "/sb", some true⟩, ⟨"b", "/tb"⟩⟩).Perm
      (emitTuple "/rfs" ⟨⟨"b", "/sb", some true⟩, ⟨"b", "/tb"⟩⟩ ++
        emitTuple "/rfs" ⟨⟨"a", "/sa", some false⟩, ⟨"a", "/ta"⟩⟩) ∧
    ∃ ts1 ts2 : List volumeMountTuple, ts1.Perm ts2 ∧
      emitTuple "/rfs" ⟨⟨"a", "/sa", some false⟩, ⟨"a", "/ta"⟩⟩ ++
        emitTuple "/rfs" ⟨⟨"b", "/sb", some true⟩, ⟨"b", "/tb"⟩⟩ =
        (ts1.map (emitTuple "/rfs")).flatten ∧
      emitTuple "/rfs" ⟨⟨"b", "/sb", some true⟩, ⟨"b", "/tb"⟩⟩ ++
        emitTuple "/rfs" ⟨⟨"a", "/sa", some false⟩, ⟨"a", "/ta"⟩⟩ =
        (ts2.map (emitTuple "/rfs")).flatten :=
  evaluateMounts_plan_idempotent "/rfs" [⟨"a", "/ta"⟩, ⟨"b", "/tb"⟩]
    [⟨"a", "/sa", some false⟩, ⟨"b", "/sb", some true⟩] [] ["a", "b"] ["b", "a"]
    (emitTuple "/rfs" ⟨⟨"a", "/sa", some false⟩, ⟨"a", "/ta"⟩⟩ ++
      emitTuple "/rfs" ⟨⟨"b", "/sb", some true⟩, ⟨"b", "/tb"⟩⟩)
    (emitTuple "/rfs" ⟨⟨"b", "/sb", some true⟩, ⟨"b", "/tb"⟩⟩ ++
      emitTuple "/rfs" ⟨⟨"a", "/sa", some false⟩, ⟨"a", "/ta"⟩⟩)
    (by decide) (by decide) (by decide)

/-- Claim C5: an image mount point and a pod-level mount that share a name
but declare different paths make plan building fail with a returned
conflict error ("conflicting path information"), and no mount list is ever
produced — neither path is silently picked. -/
theorem evaluateMounts_conflict_error :
    ∀ (rfs : String) (mounts : List SchemaMount) (volumes : List Volume)
      (mountPoints : List MountPoint) (ks : List String) (m : SchemaMount) (mp : MountPoint),
    (mounts.map (fun x => x.volume)).Nodup →
    m ∈ mounts → mp ∈ mountPoints → mp.name = m.volume → mp.path ≠ m.path →
    (∃ name, evaluateMounts rfs mounts volumes mountPoints ks =
      .errRes (.conflictingPath name)) ∧
    ∀ l, evaluateMounts rfs mounts volumes mountPoints ks ≠ .ok l := by
  intro rfs mounts volumes mountPoints ks m mp hnd hm hmp hname hpath
  obtain ⟨m1, hseed, hlook, _⟩ := seedMounts_ok mounts [] hnd (fun m2 _ => rfl)
  have hl1 : lookupNVM m1 mp.name = some ⟨zeroVolume, m⟩ := by
    rw [hname]
    exact hlook m hm
  have hconf : (⟨zeroVolume, m⟩ : volumeMountTuple).M.path ≠ mp.path :=
    fun c => hpath c.symm
  obtain ⟨name, hmerge⟩ :=
    mergeMountPoints_conflict mountPoints m1 mp ⟨zeroVolume, m⟩ hmp hl1 hconf
  have hrec := reconcile_err_merge volumes hseed hmerge
  constructor
  · exact ⟨name, evaluateMounts_errRes rfs ks hrec⟩
  · intro l he
    rw [evaluateMounts_errRes rfs ks hrec] at he
    simp at he

/-- Claim C5, witness: pod mount `v` at `/a` against image mount point `v`
at `/b`. -/
theorem evaluateMounts_conflict_error_witness :
    ∃ name, evaluateMounts "/rfs" [⟨"v", "/a"⟩] [] [⟨"v", "/b", false⟩] [] =
      .errRes (.conflictingPath name) :=
  (evaluateMounts_conflict_error "/rfs" [⟨"v", "/a"⟩] [] [⟨"v", "/b", false⟩] []
    ⟨"v", "/a"⟩ ⟨"v", "/b", false⟩ (by decide) (by decide) (by decide) (by decide)
    (by decide)).1

/-- Claim C6, counterexample: on a duplicated pod-level mount the plan
builder does not return an error value — it terminates the process through
`log.Fatalf` (modelled as the `fatal` outcome). -/
theorem evaluateMounts_duplicate_counterexample :
    evaluateMounts "/rfs" [⟨"v", "/p"⟩, ⟨"v", "/p"⟩] [] [] [] =
      .fatal (.duplicatedMount "v") ∧
    resultIsErrRes (evaluateMounts "/rfs" [⟨"v", "/p"⟩, ⟨"v", "/p"⟩] [] [] []) = false ∧
    resultIsFatal (evaluateMounts "/rfs" [⟨"v", "/p"⟩, ⟨"v", "/p"⟩] [] [] []) = true := by
  decide

/-- Claim C6, amended: if the same volume name appears twice among the
pod-level mounts, `evaluateMounts` terminates the process through
`log.Fatalf` with a duplicated-mount message; it neither returns an error
value to its caller nor produces a mount list. -/
theorem evaluateMounts_duplicate_fatal :
    ∀ (rfs : String) (mounts : List SchemaMount) (volumes : List Volume)
      (mountPoints : List MountPoint) (ks : List String),
    ¬ (mounts.map (fun x => x.volume)).Nodup →
    (∃ v, evaluateMounts rfs mounts volumes mountPoints ks =
      .fatal (.duplicatedMount v)) ∧
    (∀ e, evaluateMounts rfs mounts volumes mountPoints ks ≠ .errRes e) ∧
    (∀ l, evaluateMounts rfs mounts volumes mountPoints ks ≠ .ok l) := by
  intro rfs mounts volumes mountPoints ks hnd
  obtain ⟨v, hseed⟩ := seedMounts_fatal mounts [] (Or.inl hnd)
  have heval := evaluateMounts_fatal rfs ks (reconcile_fatal_seed volumes mountPoints hseed)
  refine ⟨⟨v, heval⟩, ?_, ?_⟩
  · intro e he
    rw [heval] at he
    simp at he
  · intro l he
    rw [heval] at he
    simp at he

/-- Claim C6, witness: the amended theorem applied to a duplicated mount
list. -/
theorem evaluateMounts_duplicate_fatal_witness :
    ∃ v, evaluateMounts "/rfs" [⟨"v", "/p"⟩, ⟨"v", "/p"⟩] [] [] [] =
      .fatal (.duplicatedMount v) :=
  (evaluateMounts_duplicate_fatal "/rfs" [⟨"v", "/p"⟩, ⟨"v", "/p"⟩] [] [] [] (by decide)).1

/-- Claim C7: a volume whose read-only flag is unset, whose matching image
mount point declares read-only true, resolves to read-only true in the
reconciled map, and — whenever its key is visited by the emission loop —
the read-only remount operation for that mount's target path appears in the
output. -/
theorem evaluateMounts_readonly_propagation :
    ∀ (rfs : String) (mounts : List SchemaMount) (volumes : List Volume)
      (mountPoints : List MountPoint) (ks : List String) (l : List flyMount)
      (v : Volume) (mp : MountPoint),
    evaluateMounts rfs mounts volumes mountPoints ks = .ok l →
    v ∈ volumes → v.readOnly = none →
    mp ∈ mountPoints → mp.name = v.name →
    (∀ mp2 ∈ mountPoints, mp2.name = v.name → mp2.readOnly = true) →
    (volumes.map (fun x => x.name)).Nodup →
    ∃ m4 t, reconcile mounts volumes mountPoints = .ok m4 ∧
      lookupNVM m4 v.name = some t ∧
      t.V.readOnly = some true ∧
      t.V.source = v.source ∧
      (v.name ∈ ks → roOp rfs t ∈ l) := by
  intro rfs mounts volumes mountPoints ks l v mp heval hv hro hmp hmpname hall hnd
  obtain ⟨m4, hrec, hl⟩ := evaluateMounts_ok_parts heval
  obtain ⟨m1, m2, m3, hseed, hmerge, hins, hfill⟩ := reconcile_parts hrec
  obtain ⟨t2, _, hlook3⟩ := insertVolumes_lookup volumes m2 m3 v hins hnd hv
  have hro3 : (⟨v, t2.M⟩ : volumeMountTuple).V.readOnly = none := hro
  have hlook4 := fillReadOnly_sets mountPoints m3 m4 v.name ⟨v, t2.M⟩ hfill hlook3 hro3
    ⟨mp, hmp, hmpname⟩ hall
  refine ⟨m4, ⟨{ v with readOnly := some true }, t2.M⟩, hrec, hlook4, rfl, rfl, ?_⟩
  intro hk
  rw [hl]
  refine List.mem_flatMap.mpr ⟨v.name, hk, ?_⟩
  simp only [hlook4]
  rw [emitTuple_eq_mountBlock]
  exact (roOp_mem_mountBlock rfs _).mpr rfl

/-- Claim C7, witness: volume `v` with unset read-only and an image mount
point declaring read-only true. -/
theorem evaluateMounts_readonly_propagation_witness :
    ∃ m4 t, reconcile [] [⟨"v", "/src", none⟩] [⟨"v", "/tgt", true⟩] = .ok m4 ∧
      lookupNVM m4 "v" = some t ∧
      t.V.readOnly = some true ∧
      t.V.source = "/src" ∧
      ("v" ∈ ["v"] → roOp "/rfs" t ∈
        emitTuple "/rfs" ⟨⟨"v", "/src", some true⟩, ⟨"v", "/tgt"⟩⟩) :=
  evaluateMounts_readonly_propagation "/rfs" [] [⟨"v", "/src", none⟩] [⟨"v", "/tgt", true⟩]
    ["v"] (emitTuple "/rfs" ⟨⟨"v", "/src", some true⟩, ⟨"v", "/tgt"⟩⟩)
    ⟨"v", "/src", none⟩ ⟨"v", "/tgt", true⟩
    (by decide) (by decide) (by decide) (by decide) (by decide) (by decide) (by decide)

/-- Claim C8: a declared volume that no pod-level mount and no image mount
point references makes plan building fail with a returned missing-mount
error ("missing mount for volume"), and no mount operation is ever
produced. -/
theorem evaluateMounts_missing_mount_error :
    ∀ (rfs : String) (mounts : List SchemaMount) (volumes : List Volume)
      (mountPoints : List MountPoint) (ks : List String) (m1 m2 : NVM) (v : Volume),
    seedMounts mounts [] = .ok m1 →
    mergeMountPoints mountPoints m1 = .ok m2 →
    v ∈ volumes →
    v.name ∉ mounts.map (fun x => x.volume) →
    v.name ∉ mountPoints.map (fun x => x.name) →
    (∃ name, evaluateMounts rfs mounts volumes mountPoints ks =
      .errRes (.missingMount name)) ∧
    ∀ l, evaluateMounts rfs mounts volumes mountPoints ks ≠ .ok l := by
  intro rfs mounts volumes mountPoints ks m1 m2 v hseed hmerge hv hnm hnmp
  have h1 : lookupNVM m1 v.name = none := by
    rw [seedMounts_stable mounts [] m1 hseed v.name hnm]
    rfl
  have h2 : lookupNVM m2 v.name = none :=
    mergeMountPoints_none mountPoints m1 m2 hmerge v.name h1 hnmp
  have hwf1 : ∀ k t, lookupNVM m1 k = some t → t.M.volume = k :=
    seedMounts_wf mounts [] m1 hseed (fun k t h => Option.noConfusion h)
  have hwf2 : ∀ k t, lookupNVM m2 k = some t → t.M.volume = k :=
    mergeMountPoints_wf mountPoints m1 m2 hmerge hwf1
  obtain ⟨name, hins⟩ := insertVolumes_missing volumes m2 hwf2 ⟨v, hv, h2⟩
  have hrec := reconcile_err_insertVolumes hseed hmerge hins
  constructor
  · exact ⟨name, evaluateMounts_errRes rfs ks hrec⟩
  · intro l he
    rw [evaluateMounts_errRes rfs ks hrec] at he
    simp at he

/-- Claim C8, witness: a volume `v` with no referencing mount or mount
point. -/
theorem evaluateMounts_missing_mount_error_witness :
    ∃ name, evaluateMounts "/rfs" [] [⟨"v", "/s", none⟩] [] [] =
      .errRes (.missingMount name) :=
  (evaluateMounts_missing_mount_error "/rfs" [] [⟨"v", "/s", none⟩] [] [] [] []
    ⟨"v", "/s", none⟩ rfl rfl (by decide) (by decide) (by decide)).1

/-- Claim C9, counterexample: the malformed-identifier class and the
pod-load-failure class both exit with code 1, so the four fatal classes do
not carry pairwise distinct exit codes. -/
theorem stage1_exit_code_counterexample :
    stage1ExitCode .malformedUUID = 1 ∧
    stage1ExitCode .loadPodFailure = 1 ∧
    ¬ stage1ExitCode .malformedUUID ≠ stage1ExitCode .loadPodFailure := by
  decide

/-- Claim C9, amended: the setup process exits 0 on success and nonzero on
every fatal class; the PID-file write failure (4) and exec failure (7)
codes are distinct from each other and from the identifier/pod-load code,
but the malformed-identifier and pod-load-failure classes share exit
code 1. -/
theorem stage1_exit_codes :
    stage1ExitCode .success = 0 ∧
    stage1ExitCode .malformedUUID = 1 ∧
    stage1ExitCode .loadPodFailure = 1 ∧
    stage1ExitCode .ppidWriteFailure = 4 ∧
    stage1ExitCode .execFailure = 7 ∧
    stage1ExitCode .malformedUUID ≠ 0 ∧
    stage1ExitCode .loadPodFailure ≠ 0 ∧
    stage1ExitCode .ppidWriteFailure ≠ 0 ∧
    stage1ExitCode .execFailure ≠ 0 ∧
    stage1ExitCode .ppidWriteFailure ≠ stage1ExitCode .execFailure ∧
    stage1ExitCode .malformedUUID ≠ stage1ExitCode .ppidWriteFailure ∧
    stage1ExitCode .malformedUUID ≠ stage1ExitCode .execFailure := by
  decide

/-- Claim C10: a pod whose manifest declares a number of apps different from
one makes `stage1` abort through `log.Fatalf` before evaluating or applying
any mount (no mount list is ever produced); with exactly one app, the whole
mount plan — including every pod-level mount declaration — is computed from
that first and only app. -/
theorem stage1_single_app (p : FlyPod) (ks : List String) :
    (p.apps.length ≠ 1 →
      stage1Mounts p ks = .fatal (.wrongAppCount p.apps.length) ∧
      ∀ l, stage1Mounts p ks ≠ .ok l) ∧
    (∀ a, p.apps = [a] → stage1Mounts p ks = stage1MountsFromApp p a ks) := by
  constructor
  · intro h
    have hb : (p.apps.length == 1) = false := by simpa using h
    constructor
    · simp [stage1Mounts, hb]
    · intro l
      simp [stage1Mounts, hb]
  · intro a ha
    simp [stage1Mounts, ha]

/-- Claim C10, witness: a pod with no app is rejected fatally; a pod with
exactly one app has its plan computed from that app. -/
theorem stage1_single_app_witness :
    stage1Mounts ⟨"/r", [], [], []⟩ [] = .fatal (.wrongAppCount 0) ∧
    stage1Mounts ⟨"/r", [⟨"app", []⟩], [], []⟩ [] =
      stage1MountsFromApp ⟨"/r", [⟨"app", []⟩], [], []⟩ ⟨"app", []⟩ [] := by
  constructor
  · exact ((stage1_single_app ⟨"/r", [], [], []⟩ []).1 (by decide)).1
  · exact (stage1_single_app ⟨"/r", [⟨"app", []⟩], [], []⟩ []).2 ⟨"app", []⟩ rfl

end RktFly

